import Mathlib

/-!
# `ore gcloud delete-images`

A shallow embedding of `runDeleteImage` from
`mantle/cmd/ore/gcloud/delete-images.go`, followed by theorems about its exit
code, its output and the calls it makes on the cloud client.

The command is a procedure with effects.  The embedding threads an explicit
process state through its two loops:

* the client (`api`, and the `*gcloud.Pending` values it hands out) is a
  state machine over an arbitrary state type `σ`: every call returns its Go
  result together with the next client state, so a client may answer
  differently each time it is called;
* `os.Stderr` writes and `plog.Infof` calls are appended to one output list,
  in program order;
* every client call is appended to a call list, in program order;
* `os.Exit` is the `exit` field of the final state;
* the Go map `pendings` is a key-unique association list, and the order in which
  `range` visits it is chosen by an extra argument `seed`, which can select
  every ordering of the entries.
-/

namespace DeleteImages

/-! ## Data model -/

/-- A non-nil Go `error` returned by the client: either a `*googleapi.Error`,
with its `Code` field, or any other error value (a wrapped `*googleapi.Error`
included, since the source uses a plain type assertion).  `msg` is the text of
`err.Error()`, which is what the `%v` verb prints. -/
inductive Err where
  | googleapi (code : Int) (msg : String)
  | other (msg : String)
  deriving DecidableEq, Repr

/-- The text of `err.Error()`. -/
def Err.Error : Err → String
  | .googleapi _ msg => msg
  | .other msg => msg

/-- A `*gcloud.Pending`: the handle of an operation in flight.  `id` stands for
the identity of the pointer. -/
structure Pending where
  id : Nat
  deriving DecidableEq, Repr

/-- The outcome of `api.DeleteImage(name)`: `(nil, err)` or `(pending, nil)`. -/
inductive Issued where
  | error (err : Err)
  | ok (pending : Pending)
  deriving DecidableEq, Repr

/-- The cloud client as the command sees it.  `DeleteImage` is
`api.DeleteImage(name)` and `Wait` is `pending.Wait()` (`none` is a nil
error); both run against the client state and return its successor. -/
structure API (σ : Type) where
  DeleteImage : σ → String → Issued × σ
  Wait : σ → Pending → Option Err × σ

/-- One output action of the command: a write to `os.Stderr`, or a message
handed to the package logger through `plog.Infof`. -/
inductive Output where
  | stderr (text : String)
  | plogInfof (msg : String)
  deriving DecidableEq, Repr

/-- One call made on the client, with its result.  A `Wait` also records the
map key (the image name) of the entry whose handle is waited on. -/
inductive Call where
  | DeleteImage (name : String) (res : Issued)
  | Wait (name : String) (pending : Pending) (res : Option Err)
  deriving DecidableEq, Repr

/-- The process state of `runDeleteImage`: the locals `exit` and `pendings`,
what has been output, the client calls made so far, and the client state. -/
structure State (σ : Type) where
  exit : Int
  pendings : List (String × Pending)
  out : List Output
  calls : List Call
  api : σ

/-! ## The Go map `pendings` -/

/-- The assignment `pendings[name] = pending`: an entry under the same key is
replaced, all other entries are kept. -/
def mapSet (m : List (String × Pending)) (name : String) (pending : Pending) :
    List (String × Pending) :=
  (name, pending) :: m.filter (fun e => decide (e.1 ≠ name))

/-- The order in which `for name, pending := range pendings` visits the entries.
Go leaves it unspecified; here the numbers of `seed` pick it: each entry is
put into the order of the remaining ones at the position its number names. -/
def mapRange : List Nat → List (String × Pending) → List (String × Pending)
  | _, [] => []
  | seed, e :: m =>
    List.insertIdx (seed.headD 0 % (m.length + 1)) e (mapRange seed.tail m)

/-! ## `runDeleteImage` -/

/-- The text of `fmt.Fprintf(os.Stderr, "Deleting %q failed: %v\n", name, err)`.
`q` is the `%q` verb of Go's `fmt` on a string (`strconv.Quote`). -/
def failureLine (q : String → String) (name : String) (err : Err) : String :=
  "Deleting " ++ q name ++ " failed: " ++ err.Error ++ "\n"

/-- The test of lines 52-54: the error is a `*googleapi.Error`, its code is 404
and the `allowMissing` flag is set. -/
def skipNotFound (allowMissing : Bool) : Err → Bool
  | .googleapi code _ => decide (code = 404) && allowMissing
  | .other _ => false

/-- The body of the first loop (lines 50-63) for one `name`. -/
def deleteStep {σ : Type} (api : API σ) (q : String → String) (allowMissing : Bool)
    (st : State σ) (name : String) : State σ :=
  match api.DeleteImage st.api name with
  | (.error err, s) =>
    if skipNotFound allowMissing err then
      { st with
        api := s
        calls := st.calls ++ [.DeleteImage name (.error err)]
        out := st.out ++ [.plogInfof (err.Error ++ "\n")] }
    else
      { st with
        api := s
        calls := st.calls ++ [.DeleteImage name (.error err)]
        out := st.out ++ [.stderr (failureLine q name err)]
        exit := 1 }
  | (.ok pending, s) =>
    { st with
      api := s
      calls := st.calls ++ [.DeleteImage name (.ok pending)]
      pendings := mapSet st.pendings name pending }

/-- The body of the second loop (lines 66-69) for one entry of `pendings`. -/
def waitStep {σ : Type} (api : API σ) (q : String → String)
    (st : State σ) (e : String × Pending) : State σ :=
  match api.Wait st.api e.2 with
  | (some err, s) =>
    { st with
      api := s
      calls := st.calls ++ [.Wait e.1 e.2 (some err)]
      out := st.out ++ [.stderr (failureLine q e.1 err)]
      exit := 1 }
  | (none, s) =>
    { st with
      api := s
      calls := st.calls ++ [.Wait e.1 e.2 none] }

/-- The state at line 47-48, before the first loop. -/
def start {σ : Type} (s : σ) : State σ :=
  { exit := 0, pendings := [], out := [], calls := [], api := s }

/-- The first loop (lines 49-64), run from the start state. -/
def deleteLoop {σ : Type} (api : API σ) (q : String → String) (allowMissing : Bool)
    (args : List String) (s : σ) : State σ :=
  args.foldl (deleteStep api q allowMissing) (start s)

/-- The command handler `runDeleteImage(cmd, args)`.  The final state holds the
code passed to `os.Exit`, the output and the client calls of the whole run. -/
def runDeleteImage {σ : Type} (api : API σ) (q : String → String) (allowMissing : Bool)
    (seed : List Nat) (args : List String) (s : σ) : State σ :=
  if args.length = 0 then
    { exit := 2, pendings := [], out := [.stderr "Specify image name(s).\n"],
      calls := [], api := s }
  else
    let st := deleteLoop api q allowMissing args s
    (mapRange seed st.pendings).foldl (waitStep api q) st

/-! ## Reading a run -/

/-- The name a `DeleteImage` call was made with. -/
def Call.deleteName : Call → Option String
  | .DeleteImage name _ => some name
  | .Wait _ _ _ => none

/-- The name and handle of a `DeleteImage` call that returned a handle. -/
def Call.issued : Call → Option (String × Pending)
  | .DeleteImage name (.ok pending) => some (name, pending)
  | _ => none

/-- The map entry (name and handle) a `Wait` call was made for. -/
def Call.waitEntry : Call → Option (String × Pending)
  | .Wait name pending _ => some (name, pending)
  | .DeleteImage _ _ => none

/-- A `DeleteImage` call that returned an error which was not skipped. -/
def Call.deleteFailed (allowMissing : Bool) : Call → Bool
  | .DeleteImage _ (.error err) => !skipNotFound allowMissing err
  | _ => false

/-- A `Wait` call that returned an error. -/
def Call.waitFailed : Call → Bool
  | .Wait _ _ (some _) => true
  | _ => false

/-- A call that marks the run as failed. -/
def Call.failed (allowMissing : Bool) (c : Call) : Bool :=
  c.deleteFailed allowMissing || c.waitFailed

/-- What the command outputs in reaction to the result of one client call. -/
def callOut (q : String → String) (allowMissing : Bool) : Call → List Output
  | .DeleteImage name (.error err) =>
    if skipNotFound allowMissing err then [.plogInfof (err.Error ++ "\n")]
    else [.stderr (failureLine q name err)]
  | .DeleteImage _ (.ok _) => []
  | .Wait name _ (some err) => [.stderr (failureLine q name err)]
  | .Wait _ _ none => []

/-- The handle that call `c` returned, if `c` is a `DeleteImage` call for `name`
that returned one. -/
def Call.issuedFor (name : String) : Call → Option Pending
  | .DeleteImage n (.ok p) => if n = name then some p else none
  | _ => none

/-- The handle returned by the last `DeleteImage` call in `calls` that was made
for `name` and returned a handle, if there is one. -/
def lastIssued (name : String) : List Call → Option Pending
  | [] => none
  | c :: cs =>
    match lastIssued name cs with
    | some p => some p
    | none => c.issuedFor name

/-- The map that the handles issued in `calls` leave behind. -/
def retained (calls : List Call) : List (String × Pending) :=
  calls.foldl
    (fun m c => match c.issued with
      | some e => mapSet m e.1 e.2
      | none => m) []

/-- A direct write to `os.Stderr`. -/
def Output.isStderr : Output → Bool
  | .stderr _ => true
  | .plogInfof _ => false

/-- Modelled from the spec: the package logger `plog` is declared outside
`delete-images.go`.  The spec lists the informational log of skipped not-found
errors among the lines of standard error.  `plog msg` is what the logger puts
on standard error for `plog.Infof` of `msg` (nothing for a logger that is
silent at this level); `stderrOf plog out` is the content of standard error
after the output actions `out`, one list element per write. -/
def stderrOf (plog : String → List String) (out : List Output) : List String :=
  out.flatMap (fun o => match o with
    | .stderr text => [text]
    | .plogInfof msg => plog msg)

/-- The state of the client after the `Wait` calls on `ps`, made in this order. -/
def afterWaits {σ : Type} (api : API σ) (s : σ) (ps : List Pending) : σ :=
  ps.foldl (fun s p => (api.Wait s p).2) s

/-- From client state `s` on, the result of `Wait` on a retained handle does not
depend on which `Wait` calls on retained handles were made before it. -/
def WaitOrderIndependent {σ : Type} (api : API σ) (s : σ)
    (pendings : List (String × Pending)) : Prop :=
  ∀ ps : List Pending, (∀ p ∈ ps, p ∈ pendings.map Prod.snd) →
    ∀ p ∈ pendings.map Prod.snd,
      (api.Wait (afterWaits api s ps) p).1 = (api.Wait s p).1

/-- The result recorded with a call is what the client returned in some state. -/
def FromClient {σ : Type} (api : API σ) : Call → Prop
  | .DeleteImage name res => ∃ s, res = (api.DeleteImage s name).1
  | .Wait _ pending res => ∃ s, res = (api.Wait s pending).1

/-! ## Examples of clients -/

/-- A client that counts its calls.  `DeleteImage` answers 404 for the image
`gone`, 403 for `denied`, a plain error for `broken`, and otherwise issues the
handle numbered by the call count.  `Wait` fails on the handles whose number
is a multiple of 3, in every client state. -/
def demoAPI : API Nat where
  DeleteImage := fun s name =>
    if name = "gone" then (.error (.googleapi 404 "notFound"), s + 1)
    else if name = "denied" then (.error (.googleapi 403 "forbidden"), s + 1)
    else if name = "broken" then (.error (.other "connection reset"), s + 1)
    else (.ok ⟨s⟩, s + 1)
  Wait := fun s p => (if p.id % 3 = 0 then some (.other "timeout") else none, s + 1)

/-- The `%q` verb on names made of plain letters. -/
def demoQuote (name : String) : String :=
  "\"" ++ name ++ "\""

/-- Modelled from the spec: the package logger `plog`, declared outside
`delete-images.go`, as the spec describes it: the informational log of a
skipped not-found error is a line of standard error. -/
def verboseLog (msg : String) : List String :=
  [msg]

/-- A logger that drops informational messages. -/
def silentLog (_msg : String) : List String :=
  []

/-! ## Invariants of the two loops -/

/-- What holds of the process state between any two loop iterations: the exit
code, the output and the map are determined by the client calls made so far. -/
structure Inv {σ : Type} (q : String → String) (allowMissing : Bool) (st : State σ) : Prop where
  exit_eq : st.exit = if st.calls.any (Call.failed allowMissing) then 1 else 0
  out_eq : st.out = st.calls.flatMap (callOut q allowMissing)
  pend_eq : st.pendings = retained st.calls

theorem retained_append_one (cs : List Call) (c : Call) :
    retained (cs ++ [c]) =
      match c.issued with
      | some e => mapSet (retained cs) e.1 e.2
      | none => retained cs := by
  simp [retained, List.foldl_append]

theorem inv_start {σ : Type} (q : String → String) (allowMissing : Bool) (s : σ) :
    Inv q allowMissing (start s) :=
  ⟨by simp [start], by simp [start], by simp [start, retained]⟩

theorem inv_deleteStep {σ : Type} (api : API σ) (q : String → String) (allowMissing : Bool)
    (st : State σ) (name : String) (h : Inv q allowMissing st) :
    Inv q allowMissing (deleteStep api q allowMissing st name) := by
  obtain ⟨he, ho, hp⟩ := h
  unfold deleteStep
  rcases hd : api.DeleteImage st.api name with ⟨r, s⟩
  cases r with
  | error err =>
    by_cases hs : skipNotFound allowMissing err = true
    · refine ⟨?_, ?_, ?_⟩
      · simp [hs, he, List.any_append, Call.failed, Call.deleteFailed, Call.waitFailed]
      · simp [hs, ho, List.flatMap_append, callOut]
      · simp [hs, hp, retained_append_one, Call.issued]
    · refine ⟨?_, ?_, ?_⟩
      · simp [hs, List.any_append, Call.failed, Call.deleteFailed, Call.waitFailed]
      · simp [hs, ho, List.flatMap_append, callOut]
      · simp [hs, hp, retained_append_one, Call.issued]
  | ok pending =>
    refine ⟨?_, ?_, ?_⟩
    · simp [he, List.any_append, Call.failed, Call.deleteFailed, Call.waitFailed]
    · simp [ho, List.flatMap_append, callOut]
    · simp [hp, retained_append_one, Call.issued]

theorem inv_waitStep {σ : Type} (api : API σ) (q : String → String) (allowMissing : Bool)
    (st : State σ) (e : String × Pending) (h : Inv q allowMissing st) :
    Inv q allowMissing (waitStep api q st e) := by
  obtain ⟨he, ho, hp⟩ := h
  unfold waitStep
  rcases hw : api.Wait st.api e.2 with ⟨r, s⟩
  cases r with
  | some err =>
    refine ⟨?_, ?_, ?_⟩
    · simp [List.any_append, Call.failed, Call.deleteFailed, Call.waitFailed]
    · simp [ho, List.flatMap_append, callOut]
    · simp [hp, retained_append_one, Call.issued]
  | none =>
    refine ⟨?_, ?_, ?_⟩
    · simp [he, List.any_append, Call.failed, Call.deleteFailed, Call.waitFailed]
    · simp [ho, List.flatMap_append, callOut]
    · simp [hp, retained_append_one, Call.issued]

theorem inv_foldl_delete {σ : Type} (api : API σ) (q : String → String) (allowMissing : Bool)
    (args : List String) (st : State σ) (h : Inv q allowMissing st) :
    Inv q allowMissing (args.foldl (deleteStep api q allowMissing) st) := by
  induction args generalizing st with
  | nil => simpa using h
  | cons a as ih => exact ih _ (inv_deleteStep api q allowMissing st a h)

theorem inv_foldl_wait {σ : Type} (api : API σ) (q : String → String) (allowMissing : Bool)
    (order : List (String × Pending)) (st : State σ) (h : Inv q allowMissing st) :
    Inv q allowMissing (order.foldl (waitStep api q) st) := by
  induction order generalizing st with
  | nil => simpa using h
  | cons e es ih => exact ih _ (inv_waitStep api q allowMissing st e h)

theorem inv_deleteLoop {σ : Type} (api : API σ) (q : String → String) (allowMissing : Bool)
    (args : List String) (s : σ) :
    Inv q allowMissing (deleteLoop api q allowMissing args s) :=
  inv_foldl_delete api q allowMissing args _ (inv_start q allowMissing s)

theorem runDeleteImage_of_ne_nil {σ : Type} (api : API σ) (q : String → String)
    (allowMissing : Bool) (seed : List Nat) (args : List String) (s : σ) (hargs : args ≠ []) :
    runDeleteImage api q allowMissing seed args s =
      (mapRange seed (deleteLoop api q allowMissing args s).pendings).foldl (waitStep api q)
        (deleteLoop api q allowMissing args s) := by
  have : args.length ≠ 0 := by simpa using hargs
  simp [runDeleteImage, this]

theorem inv_run {σ : Type} (api : API σ) (q : String → String) (allowMissing : Bool)
    (seed : List Nat) (args : List String) (s : σ) (hargs : args ≠ []) :
    Inv q allowMissing (runDeleteImage api q allowMissing seed args s) := by
  rw [runDeleteImage_of_ne_nil api q allowMissing seed args s hargs]
  exact inv_foldl_wait api q allowMissing _ _ (inv_deleteLoop api q allowMissing args s)

/-! ## The calls of the two loops -/

theorem calls_deleteStep {σ : Type} (api : API σ) (q : String → String) (allowMissing : Bool)
    (st : State σ) (name : String) :
    (deleteStep api q allowMissing st name).calls =
      st.calls ++ [.DeleteImage name (api.DeleteImage st.api name).1] := by
  unfold deleteStep
  rcases hd : api.DeleteImage st.api name with ⟨r, s⟩
  cases r with
  | error err =>
    by_cases hs : skipNotFound allowMissing err = true
    · simp [hs]
    · simp [hs]
  | ok pending => simp

theorem calls_waitStep {σ : Type} (api : API σ) (q : String → String)
    (st : State σ) (e : String × Pending) :
    (waitStep api q st e).calls = st.calls ++ [.Wait e.1 e.2 (api.Wait st.api e.2).1] ∧
      (waitStep api q st e).api = (api.Wait st.api e.2).2 := by
  unfold waitStep
  rcases hw : api.Wait st.api e.2 with ⟨r, s⟩
  cases r <;> simp

theorem calls_foldl_delete {σ : Type} (api : API σ) (q : String → String) (allowMissing : Bool)
    (args : List String) (st : State σ) :
    ∃ ds, (args.foldl (deleteStep api q allowMissing) st).calls = st.calls ++ ds ∧
      ds.map Call.deleteName = args.map some := by
  induction args generalizing st with
  | nil => exact ⟨[], by simp, by simp⟩
  | cons a as ih =>
    obtain ⟨ds, hds, hm⟩ := ih (deleteStep api q allowMissing st a)
    refine ⟨.DeleteImage a (api.DeleteImage st.api a).1 :: ds, ?_, ?_⟩
    · simp [List.foldl_cons, hds, calls_deleteStep api q allowMissing st a]
    · simp [hm, Call.deleteName]

theorem calls_foldl_wait {σ : Type} (api : API σ) (q : String → String)
    (order : List (String × Pending)) (st : State σ) :
    ∃ ws, (order.foldl (waitStep api q) st).calls = st.calls ++ ws ∧
      ws.map Call.waitEntry = order.map some := by
  induction order generalizing st with
  | nil => exact ⟨[], by simp, by simp⟩
  | cons e es ih =>
    obtain ⟨ws, hws, hm⟩ := ih (waitStep api q st e)
    refine ⟨.Wait e.1 e.2 (api.Wait st.api e.2).1 :: ws, ?_, ?_⟩
    · simp [List.foldl_cons, hws, (calls_waitStep api q st e).1]
    · simp [hm, Call.waitEntry]

theorem calls_deleteLoop {σ : Type} (api : API σ) (q : String → String) (allowMissing : Bool)
    (args : List String) (s : σ) :
    (deleteLoop api q allowMissing args s).calls.map Call.deleteName = args.map some := by
  obtain ⟨ds, hds, hm⟩ := calls_foldl_delete api q allowMissing args (start s)
  have : (deleteLoop api q allowMissing args s).calls = ds := by
    simpa [deleteLoop, start] using hds
  rw [this, hm]

/-- The shape of the call list of a run: the calls of the first loop, one per
argument, followed by one `Wait` per entry that `range` visits. -/
theorem run_calls {σ : Type} (api : API σ) (q : String → String) (allowMissing : Bool)
    (seed : List Nat) (args : List String) (s : σ) (hargs : args ≠ []) :
    ∃ ds ws, (runDeleteImage api q allowMissing seed args s).calls = ds ++ ws ∧
      (deleteLoop api q allowMissing args s).calls = ds ∧
      ds.map Call.deleteName = args.map some ∧
      ws.map Call.waitEntry = (mapRange seed (retained ds)).map some := by
  rw [runDeleteImage_of_ne_nil api q allowMissing seed args s hargs]
  obtain ⟨ws, hws, hm⟩ := calls_foldl_wait api q
    (mapRange seed (deleteLoop api q allowMissing args s).pendings)
    (deleteLoop api q allowMissing args s)
  refine ⟨_, ws, hws, rfl, calls_deleteLoop api q allowMissing args s, ?_⟩
  rw [hm, (inv_deleteLoop api q allowMissing args s).pend_eq]

/-! ## Facts about the map -/

theorem insertIdx_length_append (l₁ l₂ : List (String × Pending)) (e : String × Pending) :
    List.insertIdx l₁.length e (l₁ ++ l₂) = l₁ ++ e :: l₂ := by
  induction l₁ with
  | nil => simp [List.insertIdx_zero]
  | cons a l ih => simp [List.insertIdx_succ_cons, ih]

theorem mapRange_perm (seed : List Nat) (m : List (String × Pending)) :
    (mapRange seed m).Perm m := by
  induction m generalizing seed with
  | nil => simp [mapRange]
  | cons e m ih =>
    have hlen : (mapRange seed.tail m).length = m.length := (ih seed.tail).length_eq
    have hle : seed.headD 0 % (m.length + 1) ≤ (mapRange seed.tail m).length := by
      rw [hlen]; exact Nat.lt_succ_iff.mp (Nat.mod_lt _ (Nat.succ_pos _))
    exact (List.perm_insertIdx e _ hle).trans ((ih seed.tail).cons e)

/-- Every ordering of the entries is the visiting order of some seed. -/
theorem mapRange_surj (m order : List (String × Pending)) (h : order.Perm m) :
    ∃ seed, mapRange seed m = order := by
  induction m generalizing order with
  | nil => exact ⟨[], by simp [mapRange, List.perm_nil.mp h]⟩
  | cons e m ih =>
    have he : e ∈ order := h.symm.subset (List.mem_cons_self e m)
    obtain ⟨l₁, l₂, rfl⟩ := List.append_of_mem he
    have hp : (l₁ ++ l₂).Perm m := by
      have := h
      rw [List.perm_comm] at this
      have h2 : (e :: m).Perm (e :: (l₁ ++ l₂)) := this.trans List.perm_middle
      exact ((List.perm_cons e).mp h2).symm
    obtain ⟨seed, hseed⟩ := ih (l₁ ++ l₂) hp
    have hlen : l₁.length + l₂.length = m.length := by
      simpa using hp.length_eq
    refine ⟨l₁.length :: seed, ?_⟩
    have hmod : l₁.length % (m.length + 1) = l₁.length := Nat.mod_eq_of_lt (by omega)
    simp only [mapRange, List.headD_cons, List.tail_cons, hmod, hseed]
    exact insertIdx_length_append l₁ l₂ e

theorem mem_mapSet (m : List (String × Pending)) (name : String) (pending : Pending)
    (e : String × Pending) :
    e ∈ mapSet m name pending ↔ e = (name, pending) ∨ (e.1 ≠ name ∧ e ∈ m) := by
  simp [mapSet, List.mem_filter, and_comm]

theorem keys_mapSet_nodup (m : List (String × Pending)) (name : String) (pending : Pending)
    (h : (m.map Prod.fst).Nodup) : ((mapSet m name pending).map Prod.fst).Nodup := by
  simp only [mapSet, List.map_cons, List.nodup_cons]
  refine ⟨?_, ?_⟩
  · simp [List.mem_map, List.mem_filter]
  · exact (List.Nodup.sublist ((List.filter_sublist _).map Prod.fst) h)

theorem keys_retained_nodup (cs : List Call) : ((retained cs).map Prod.fst).Nodup := by
  induction cs using List.reverseRecOn with
  | nil => simp [retained]
  | append_singleton cs c ih =>
    rw [retained_append_one]
    cases hc : c.issued with
    | none => simpa using ih
    | some e => simpa using keys_mapSet_nodup _ e.1 e.2 ih

theorem issuedFor_eq (name : String) (c : Call) :
    c.issuedFor name =
      match c.issued with
      | some e => if e.1 = name then some e.2 else none
      | none => none := by
  cases c with
  | DeleteImage n r => cases r <;> simp [Call.issuedFor, Call.issued]
  | Wait n p r => simp [Call.issuedFor, Call.issued]

theorem lastIssued_append_one (name : String) (cs : List Call) (c : Call) :
    lastIssued name (cs ++ [c]) =
      match c.issued with
      | some e => if e.1 = name then some e.2 else lastIssued name cs
      | none => lastIssued name cs := by
  induction cs with
  | nil =>
    simp only [List.nil_append, lastIssued, issuedFor_eq]
  | cons d cs ih =>
    have hcons : lastIssued name (d :: cs ++ [c]) =
        match lastIssued name (cs ++ [c]) with
        | some p => some p
        | none => d.issuedFor name := rfl
    rw [hcons, ih]
    simp only [lastIssued]
    cases hc : c.issued with
    | none => simp
    | some e =>
      by_cases hn : e.1 = name
      · simp [hn]
      · simp [hn]

/-- The map left by the first loop holds, under each name, the handle of the
last `DeleteImage` call for that name that returned one. -/
theorem mem_retained (cs : List Call) (name : String) (pending : Pending) :
    (name, pending) ∈ retained cs ↔ lastIssued name cs = some pending := by
  induction cs using List.reverseRecOn with
  | nil => simp [retained, lastIssued]
  | append_singleton cs c ih =>
    rw [retained_append_one, lastIssued_append_one]
    cases hc : c.issued with
    | none => simpa using ih
    | some e =>
      obtain ⟨n, p⟩ := e
      by_cases hn : n = name
      · subst hn
        simp [mem_mapSet, eq_comm]
      · have hn2 : name ≠ n := fun h => hn h.symm
        simp [mem_mapSet, hn, hn2, ih]

/-! ## Call results come from the client -/

theorem fromClient_deleteStep {σ : Type} (api : API σ) (q : String → String)
    (allowMissing : Bool) (st : State σ) (name : String)
    (h : ∀ c ∈ st.calls, FromClient api c) :
    ∀ c ∈ (deleteStep api q allowMissing st name).calls, FromClient api c := by
  intro c hc
  rw [calls_deleteStep api q allowMissing st name, List.mem_append, List.mem_singleton] at hc
  rcases hc with hc | rfl
  · exact h c hc
  · exact ⟨st.api, rfl⟩

theorem fromClient_waitStep {σ : Type} (api : API σ) (q : String → String)
    (st : State σ) (e : String × Pending) (h : ∀ c ∈ st.calls, FromClient api c) :
    ∀ c ∈ (waitStep api q st e).calls, FromClient api c := by
  intro c hc
  rw [(calls_waitStep api q st e).1, List.mem_append, List.mem_singleton] at hc
  rcases hc with hc | rfl
  · exact h c hc
  · exact ⟨st.api, rfl⟩

theorem fromClient_run {σ : Type} (api : API σ) (q : String → String) (allowMissing : Bool)
    (seed : List Nat) (args : List String) (s : σ) :
    ∀ c ∈ (runDeleteImage api q allowMissing seed args s).calls, FromClient api c := by
  by_cases hargs : args = []
  · subst hargs
    simp [runDeleteImage]
  · rw [runDeleteImage_of_ne_nil api q allowMissing seed args s hargs]
    have hdel : ∀ (as : List String) (st : State σ), (∀ c ∈ st.calls, FromClient api c) →
        ∀ c ∈ (as.foldl (deleteStep api q allowMissing) st).calls, FromClient api c := by
      intro as
      induction as with
      | nil => intro st h; simpa using h
      | cons a as ih =>
        intro st h
        exact ih _ (fromClient_deleteStep api q allowMissing st a h)
    have hwait : ∀ (es : List (String × Pending)) (st : State σ),
        (∀ c ∈ st.calls, FromClient api c) →
        ∀ c ∈ (es.foldl (waitStep api q) st).calls, FromClient api c := by
      intro es
      induction es with
      | nil => intro st h; simpa using h
      | cons e es ih =>
        intro st h
        exact ih _ (fromClient_waitStep api q st e h)
    exact hwait _ _ (hdel args (start s) (by simp [start]))

/-! ## What is waited on -/

theorem pendings_foldl_wait {σ : Type} (api : API σ) (q : String → String)
    (order : List (String × Pending)) (st : State σ) :
    (order.foldl (waitStep api q) st).pendings = st.pendings := by
  induction order generalizing st with
  | nil => rfl
  | cons e es ih =>
    rw [List.foldl_cons, ih]
    unfold waitStep
    rcases hw : api.Wait st.api e.2 with ⟨r, s⟩
    cases r <;> rfl

/-- The entries waited on are the entries of the map left by the first loop,
in some order. -/
theorem run_waited {σ : Type} (api : API σ) (q : String → String) (allowMissing : Bool)
    (seed : List Nat) (args : List String) (s : σ) :
    ((runDeleteImage api q allowMissing seed args s).calls.filterMap Call.waitEntry).Perm
      (retained (runDeleteImage api q allowMissing seed args s).calls) := by
  by_cases hargs : args = []
  · subst hargs
    simp [runDeleteImage, retained]
  · obtain ⟨ds, ws, hcalls, hloop, hds, hws⟩ := run_calls api q allowMissing seed args s hargs
    have hret : retained (runDeleteImage api q allowMissing seed args s).calls = retained ds := by
      rw [← (inv_run api q allowMissing seed args s hargs).pend_eq,
        runDeleteImage_of_ne_nil api q allowMissing seed args s hargs, pendings_foldl_wait,
        (inv_deleteLoop api q allowMissing args s).pend_eq, hloop]
    have h1 : ds.filterMap Call.waitEntry = [] := by
      rw [List.filterMap_eq_nil_iff]
      intro c hc
      have hmem : c.deleteName ∈ ds.map Call.deleteName := List.mem_map_of_mem _ hc
      rw [hds] at hmem
      obtain ⟨n, _, hn⟩ := List.mem_map.mp hmem
      cases c with
      | DeleteImage n r => rfl
      | Wait n p r => simp [Call.deleteName] at hn
    have h2 : ws.filterMap Call.waitEntry = mapRange seed (retained ds) := by
      have := congrArg (List.filterMap id) hws
      simpa [List.filterMap_map] using this
    rw [hret, hcalls, List.filterMap_append, h1, h2, List.nil_append]
    exact mapRange_perm seed _

theorem mem_of_lastIssued (name : String) (pending : Pending) (cs : List Call)
    (h : lastIssued name cs = some pending) :
    Call.DeleteImage name (.ok pending) ∈ cs := by
  induction cs with
  | nil => simp [lastIssued] at h
  | cons c cs ih =>
    simp only [lastIssued] at h
    cases hl : lastIssued name cs with
    | some p =>
      rw [hl] at h
      simp only [Option.some.injEq] at h
      subst h
      exact List.mem_cons_of_mem _ (ih hl)
    | none =>
      rw [hl] at h
      cases c with
      | DeleteImage n r =>
        cases r with
        | error err => simp [Call.issuedFor] at h
        | ok p =>
          by_cases hn : n = name
          · simp only [Call.issuedFor, hn, if_true, Option.some.injEq] at h
            subst hn; subst h
            exact List.mem_cons_self _ _
          · simp [Call.issuedFor, hn] at h
      | Wait n p r => simp [Call.issuedFor] at h

theorem lastIssued_of_mem (name : String) (pending : Pending) (cs : List Call)
    (h : Call.DeleteImage name (.ok pending) ∈ cs) :
    ∃ p, lastIssued name cs = some p := by
  induction cs with
  | nil => simp at h
  | cons c cs ih =>
    simp only [lastIssued]
    cases hl : lastIssued name cs with
    | some p => exact ⟨p, rfl⟩
    | none =>
      rcases List.mem_cons.mp h with hc | hc
      · subst hc
        exact ⟨pending, by simp [Call.issuedFor]⟩
      · obtain ⟨p, hp⟩ := ih hc
        rw [hl] at hp
        cases hp

/-- When no name is issued a handle twice, the map left behind holds every
handle that was issued. -/
theorem retained_perm_issued (cs : List Call)
    (h : ((cs.filterMap Call.issued).map Prod.fst).Nodup) :
    (retained cs).Perm (cs.filterMap Call.issued) := by
  induction cs using List.reverseRecOn with
  | nil => simp [retained]
  | append_singleton cs c ih =>
    rw [retained_append_one, List.filterMap_append]
    rw [List.filterMap_append, List.map_append, List.nodup_append] at h
    obtain ⟨hcs, _, hdisj⟩ := h
    cases hc : c.issued with
    | none => simpa [hc] using ih hcs
    | some e =>
      have hperm := ih hcs
      have hfilter : (retained cs).filter (fun x => decide (x.1 ≠ e.1)) = retained cs := by
        rw [List.filter_eq_self]
        intro x hx
        have hx2 : x.1 ∈ (cs.filterMap Call.issued).map Prod.fst :=
          List.mem_map_of_mem _ (hperm.mem_iff.mp hx)
        have he : e.1 ∈ (List.filterMap Call.issued [c]).map Prod.fst := by simp [hc]
        have hne : x.1 ≠ e.1 := fun heq => hdisj hx2 (heq ▸ he)
        simpa using hne
      simp only [mapSet, hfilter, List.filterMap_cons, hc, List.filterMap_nil]
      exact (hperm.cons e).trans (List.perm_append_singleton e _).symm

/-! ## Exit code and output as functions of the calls -/

theorem any_failed_iff (allowMissing : Bool) (cs : List Call) :
    cs.any (Call.failed allowMissing) = true ↔
      (∃ name err, Call.DeleteImage name (.error err) ∈ cs ∧
        skipNotFound allowMissing err = false) ∨
      (∃ name pending err, Call.Wait name pending (some err) ∈ cs) := by
  rw [List.any_eq_true]
  constructor
  · rintro ⟨c, hc, hf⟩
    cases c with
    | DeleteImage n r =>
      cases r with
      | error err =>
        left
        refine ⟨n, err, hc, ?_⟩
        simpa [Call.failed, Call.deleteFailed, Call.waitFailed] using hf
      | ok p => simp [Call.failed, Call.deleteFailed, Call.waitFailed] at hf
    | Wait n p r =>
      cases r with
      | some err => exact Or.inr ⟨n, p, err, hc⟩
      | none => simp [Call.failed, Call.deleteFailed, Call.waitFailed] at hf
  · rintro (⟨n, err, hc, hs⟩ | ⟨n, p, err, hc⟩)
    · exact ⟨_, hc, by simp [Call.failed, Call.deleteFailed, hs]⟩
    · exact ⟨_, hc, by simp [Call.failed, Call.waitFailed]⟩

theorem mem_out_of_mem_calls (q : String → String) (allowMissing : Bool) (cs : List Call)
    (c : Call) (o : Output) (hc : c ∈ cs) (ho : o ∈ callOut q allowMissing c) :
    o ∈ cs.flatMap (callOut q allowMissing) :=
  List.mem_flatMap.mpr ⟨c, hc, ho⟩

theorem mem_stderrOf (plog : String → List String) (out : List Output) (text : String)
    (h : Output.stderr text ∈ out) : text ∈ stderrOf plog out :=
  List.mem_flatMap.mpr ⟨_, h, by simp⟩

theorem skipNotFound_eq_true (allowMissing : Bool) (err : Err) :
    skipNotFound allowMissing err = true ↔
      allowMissing = true ∧ ∃ msg, err = Err.googleapi 404 msg := by
  cases err with
  | googleapi code msg =>
    simp only [skipNotFound, Bool.and_eq_true, decide_eq_true_eq, Err.googleapi.injEq]
    constructor
    · rintro ⟨rfl, h⟩
      exact ⟨h, msg, rfl, rfl⟩
    · rintro ⟨h, m, rfl, _⟩
      exact ⟨rfl, h⟩
  | other msg => simp [skipNotFound]

theorem exit_eq_one_iff {σ : Type} (api : API σ) (q : String → String)
    (allowMissing : Bool) (seed : List Nat) (args : List String) (s : σ) (hargs : args ≠ []) :
    (runDeleteImage api q allowMissing seed args s).exit = 1 ↔
      ((∃ name err, Call.DeleteImage name (.error err) ∈
          (runDeleteImage api q allowMissing seed args s).calls ∧
          skipNotFound allowMissing err = false) ∨
       (∃ name pending err, Call.Wait name pending (some err) ∈
          (runDeleteImage api q allowMissing seed args s).calls)) := by
  have hex := (inv_run api q allowMissing seed args s hargs).exit_eq
  rw [← any_failed_iff]
  by_cases hany : (runDeleteImage api q allowMissing seed args s).calls.any
      (Call.failed allowMissing) = true
  · rw [if_pos hany] at hex
    simp [hex, hany]
  · rw [if_neg hany] at hex
    simp [hex, hany]

theorem countP_stderr_callOut (q : String → String) (allowMissing : Bool) (cs : List Call) :
    (cs.flatMap (callOut q allowMissing)).countP Output.isStderr =
      cs.countP (Call.deleteFailed allowMissing) + cs.countP Call.waitFailed := by
  induction cs with
  | nil => simp
  | cons c cs ih =>
    rw [List.flatMap_cons, List.countP_append, ih, List.countP_cons, List.countP_cons]
    cases c with
    | DeleteImage n r =>
      cases r with
      | error err =>
        by_cases hs : skipNotFound allowMissing err = true
        · simp [callOut, hs, Call.deleteFailed, Call.waitFailed, Output.isStderr]
        · simp [callOut, hs, Call.deleteFailed, Call.waitFailed, Output.isStderr]
          omega
      | ok p => simp [callOut, Call.deleteFailed, Call.waitFailed]
    | Wait n p r =>
      cases r with
      | some err =>
        simp [callOut, Call.deleteFailed, Call.waitFailed, Output.isStderr]
        omega
      | none => simp [callOut, Call.deleteFailed, Call.waitFailed]

theorem afterWaits_append_one {σ : Type} (api : API σ) (s : σ) (ps : List Pending)
    (p : Pending) :
    afterWaits api s (ps ++ [p]) = (api.Wait (afterWaits api s ps) p).2 := by
  simp [afterWaits, List.foldl_append]

/-- Under order independence, the second loop records for every entry the
result that `Wait` on its handle has right after the first loop. -/
theorem calls_foldl_wait_indep {σ : Type} (api : API σ) (q : String → String)
    (m : List (String × Pending)) (s₀ : σ) (hind : WaitOrderIndependent api s₀ m)
    (order : List (String × Pending)) (st : State σ) (ps : List Pending)
    (horder : ∀ e ∈ order, e.2 ∈ m.map Prod.snd)
    (hps : ∀ p ∈ ps, p ∈ m.map Prod.snd) (hst : st.api = afterWaits api s₀ ps) :
    (order.foldl (waitStep api q) st).calls =
      st.calls ++ order.map (fun e => Call.Wait e.1 e.2 (api.Wait s₀ e.2).1) := by
  induction order generalizing st ps with
  | nil => simp
  | cons e es ih =>
    have he : e.2 ∈ m.map Prod.snd := horder e (List.mem_cons_self _ _)
    have hstep := calls_waitStep api q st e
    have hres : (api.Wait st.api e.2).1 = (api.Wait s₀ e.2).1 := by
      rw [hst]
      exact hind ps hps e.2 he
    rw [List.foldl_cons,
      ih (waitStep api q st e) (ps ++ [e.2])
        (fun x hx => horder x (List.mem_cons_of_mem _ hx))
        (by
          intro p hp
          rcases List.mem_append.mp hp with hp | hp
          · exact hps p hp
          · rw [List.mem_singleton.mp hp]; exact he)
        (by rw [hstep.2, afterWaits_append_one, hst]),
      hstep.1, hres]
    simp

theorem pendings_run {σ : Type} (api : API σ) (q : String → String) (allowMissing : Bool)
    (seed : List Nat) (args : List String) (s : σ) :
    (runDeleteImage api q allowMissing seed args s).pendings =
      retained (runDeleteImage api q allowMissing seed args s).calls := by
  by_cases hargs : args = []
  · subst hargs
    simp [runDeleteImage, retained]
  · exact (inv_run api q allowMissing seed args s hargs).pend_eq

theorem deleteNames_run {σ : Type} (api : API σ) (q : String → String) (allowMissing : Bool)
    (seed : List Nat) (args : List String) (s : σ) :
    (runDeleteImage api q allowMissing seed args s).calls.filterMap Call.deleteName = args := by
  by_cases hargs : args = []
  · subst hargs
    simp [runDeleteImage]
  · obtain ⟨ds, ws, hcalls, _, hds, hws⟩ := run_calls api q allowMissing seed args s hargs
    rw [hcalls, List.filterMap_append]
    have h1 : ds.filterMap Call.deleteName = args := by
      have := congrArg (List.filterMap id) hds
      simpa [List.filterMap_map] using this
    have h2 : ws.filterMap Call.deleteName = [] := by
      rw [List.filterMap_eq_nil_iff]
      intro c hc
      have hmem : c.waitEntry ∈ ws.map Call.waitEntry := List.mem_map_of_mem _ hc
      rw [hws] at hmem
      obtain ⟨e, _, he⟩ := List.mem_map.mp hmem
      cases c with
      | DeleteImage n r => simp [Call.waitEntry] at he
      | Wait n p r => rfl
    rw [h1, h2, List.append_nil]

/-- The names that were issued a handle are among the names `DeleteImage` was
called with, in the same order. -/
theorem issued_names_sublist (cs : List Call) :
    ((cs.filterMap Call.issued).map Prod.fst).Sublist (cs.filterMap Call.deleteName) := by
  induction cs with
  | nil => simp
  | cons c cs ih =>
    cases c with
    | DeleteImage n r =>
      cases r with
      | error err =>
        simpa [List.filterMap_cons, Call.issued, Call.deleteName] using ih.cons n
      | ok p =>
        simpa [List.filterMap_cons, Call.issued, Call.deleteName] using ih.cons₂ n
    | Wait n p r =>
      simpa [List.filterMap_cons, Call.issued, Call.deleteName] using ih

/-! ## The claims -/

/-- C1: for every value of the allow-missing flag (and every client, visiting
order and client state), `runDeleteImage` on the empty argument list ends with
exit code 2, its only output is the one write of `Specify image name(s).\n` to
standard error (so that is all of standard error, whatever the logger does),
and it makes no `DeleteImage` and no `Wait` call. -/
theorem c1_no_args_usage_error {σ : Type} (api : API σ) (q : String → String)
    (allowMissing : Bool) (seed : List Nat) (s : σ) :
    (runDeleteImage api q allowMissing seed [] s).exit = 2 ∧
    (runDeleteImage api q allowMissing seed [] s).out =
      [Output.stderr "Specify image name(s).\n"] ∧
    (∀ plog, stderrOf plog (runDeleteImage api q allowMissing seed [] s).out =
      ["Specify image name(s).\n"]) ∧
    (runDeleteImage api q allowMissing seed [] s).calls = [] := by
  simp [runDeleteImage, stderrOf]

/-- C2: for a non-empty argument list, the exit code is 1 exactly when a
failure was marked, that is when some `DeleteImage` call returned an error that
was not skipped or some `Wait` call returned an error; it is 0 exactly when
neither happened, in particular when no `DeleteImage` call and no `Wait` call
of the run returned an error, and so when the client lets every `DeleteImage`
and every `Wait` succeed; and it is always 0 or 1. -/
theorem c2_exit_code_reflects_failures {σ : Type} (api : API σ) (q : String → String)
    (allowMissing : Bool) (seed : List Nat) (args : List String) (s : σ) (hargs : args ≠ []) :
    ((runDeleteImage api q allowMissing seed args s).exit = 1 ↔
      ((∃ name err, Call.DeleteImage name (.error err) ∈
          (runDeleteImage api q allowMissing seed args s).calls ∧
          skipNotFound allowMissing err = false) ∨
       (∃ name pending err, Call.Wait name pending (some err) ∈
          (runDeleteImage api q allowMissing seed args s).calls))) ∧
    ((runDeleteImage api q allowMissing seed args s).exit = 0 ↔
      ¬ ((∃ name err, Call.DeleteImage name (.error err) ∈
          (runDeleteImage api q allowMissing seed args s).calls ∧
          skipNotFound allowMissing err = false) ∨
       (∃ name pending err, Call.Wait name pending (some err) ∈
          (runDeleteImage api q allowMissing seed args s).calls))) ∧
    (((∀ name err, Call.DeleteImage name (.error err) ∉
          (runDeleteImage api q allowMissing seed args s).calls) ∧
      (∀ name pending err, Call.Wait name pending (some err) ∉
          (runDeleteImage api q allowMissing seed args s).calls)) →
      (runDeleteImage api q allowMissing seed args s).exit = 0) ∧
    (((∀ s' name, ∃ pending, (api.DeleteImage s' name).1 = .ok pending) ∧
      (∀ s' pending, (api.Wait s' pending).1 = none)) →
      (runDeleteImage api q allowMissing seed args s).exit = 0) ∧
    ((runDeleteImage api q allowMissing seed args s).exit = 0 ∨
      (runDeleteImage api q allowMissing seed args s).exit = 1) := by
  have hinv := inv_run api q allowMissing seed args s hargs
  have hex := hinv.exit_eq
  have hfrom := fromClient_run api q allowMissing seed args s
  rw [← any_failed_iff]
  by_cases hany : (runDeleteImage api q allowMissing seed args s).calls.any
      (Call.failed allowMissing) = true
  · rw [if_pos hany] at hex
    refine ⟨by simp [hex, hany], by simp [hex, hany], ?_, ?_, Or.inr hex⟩
    · rintro ⟨h1, h2⟩
      rcases (any_failed_iff allowMissing _).mp hany with ⟨n, e, hc, _⟩ | ⟨n, p, e, hc⟩
      · exact absurd hc (h1 n e)
      · exact absurd hc (h2 n p e)
    · rintro ⟨h1, h2⟩
      rcases (any_failed_iff allowMissing _).mp hany with ⟨n, e, hc, _⟩ | ⟨n, p, e, hc⟩
      · obtain ⟨s', hs'⟩ := hfrom _ hc
        obtain ⟨p, hp⟩ := h1 s' n
        rw [hp] at hs'
        cases hs'
      · obtain ⟨s', hs'⟩ := hfrom _ hc
        rw [h2 s' p] at hs'
        cases hs'
  · rw [if_neg hany] at hex
    exact ⟨by simp [hex, hany], by simp [hex, hany], fun _ => hex, fun _ => hex, Or.inl hex⟩

/-- Witness of C2: the image `a` is issued and its wait fails. -/
theorem c2_exit_code_reflects_failures_witness :
    (runDeleteImage demoAPI demoQuote false [] ["a", "b"] 0).exit = 0 ∨
      (runDeleteImage demoAPI demoQuote false [] ["a", "b"] 0).exit = 1 :=
  (c2_exit_code_reflects_failures demoAPI demoQuote false [] ["a", "b"] 0 (by decide)).2.2.2.2

/-- C3: for a non-empty argument list, the names passed to `DeleteImage`, in
call order, are exactly the arguments, in input order, whatever the earlier
calls returned; and if one of these calls returned an error that was not
skipped, the exit code is 1. -/
theorem c3_every_name_attempted_in_order {σ : Type} (api : API σ) (q : String → String)
    (allowMissing : Bool) (seed : List Nat) (args : List String) (s : σ) (hargs : args ≠ []) :
    (runDeleteImage api q allowMissing seed args s).calls.filterMap Call.deleteName = args ∧
    ((∃ name err, Call.DeleteImage name (.error err) ∈
        (runDeleteImage api q allowMissing seed args s).calls ∧
        skipNotFound allowMissing err = false) →
      (runDeleteImage api q allowMissing seed args s).exit = 1) := by
  refine ⟨?_, fun h =>
    (exit_eq_one_iff api q allowMissing seed args s hargs).mpr (Or.inl h)⟩
  obtain ⟨ds, ws, hcalls, _, hds, hws⟩ := run_calls api q allowMissing seed args s hargs
  rw [hcalls, List.filterMap_append]
  have h1 : ds.filterMap Call.deleteName = args := by
    have := congrArg (List.filterMap id) hds
    simpa [List.filterMap_map] using this
  have h2 : ws.filterMap Call.deleteName = [] := by
    rw [List.filterMap_eq_nil_iff]
    intro c hc
    have hmem : c.waitEntry ∈ ws.map Call.waitEntry := List.mem_map_of_mem _ hc
    rw [hws] at hmem
    obtain ⟨e, _, he⟩ := List.mem_map.mp hmem
    cases c with
    | DeleteImage n r => simp [Call.waitEntry] at he
    | Wait n p r => rfl
  rw [h1, h2, List.append_nil]

/-- Witness of C3: five names, of which one is skipped and one fails. -/
theorem c3_every_name_attempted_in_order_witness :
    (runDeleteImage demoAPI demoQuote true [1, 1] ["a", "gone", "a", "b", "denied"]
        0).calls.filterMap Call.deleteName = ["a", "gone", "a", "b", "denied"] :=
  (c3_every_name_attempted_in_order demoAPI demoQuote true [1, 1]
    ["a", "gone", "a", "b", "denied"] 0 (by decide)).1

/-- C5: for a non-empty argument list, whenever the `DeleteImage` call for
`name` returns an error `err` that is not both a `*googleapi.Error` with code
404 and met with allow-missing set (so: a 404 without the flag, another code,
or an error of another type, under either flag value), the write
`Deleting <quoted name> failed: <err>` to standard error is part of the output,
hence of standard error whatever the logger does, and the exit code is 1. -/
theorem c5_untolerated_error_reported {σ : Type} (api : API σ) (q : String → String)
    (allowMissing : Bool) (seed : List Nat) (args : List String) (s : σ) (hargs : args ≠ [])
    (name : String) (err : Err)
    (hcall : Call.DeleteImage name (.error err) ∈
      (runDeleteImage api q allowMissing seed args s).calls)
    (herr : ¬ (allowMissing = true ∧ ∃ msg, err = Err.googleapi 404 msg)) :
    Output.stderr ("Deleting " ++ q name ++ " failed: " ++ err.Error ++ "\n") ∈
      (runDeleteImage api q allowMissing seed args s).out ∧
    (∀ plog, ("Deleting " ++ q name ++ " failed: " ++ err.Error ++ "\n") ∈
      stderrOf plog (runDeleteImage api q allowMissing seed args s).out) ∧
    (runDeleteImage api q allowMissing seed args s).exit = 1 := by
  have hskip : skipNotFound allowMissing err = false := by
    rw [← Bool.not_eq_true, skipNotFound_eq_true]
    exact herr
  have hinv := inv_run api q allowMissing seed args s hargs
  have hout : Output.stderr ("Deleting " ++ q name ++ " failed: " ++ err.Error ++ "\n") ∈
      (runDeleteImage api q allowMissing seed args s).out := by
    rw [hinv.out_eq]
    exact mem_out_of_mem_calls q allowMissing _ _ _ hcall (by simp [callOut, hskip, failureLine])
  exact ⟨hout, fun plog => mem_stderrOf plog _ _ hout,
    (exit_eq_one_iff api q allowMissing seed args s hargs).mpr (Or.inl ⟨name, err, hcall, hskip⟩)⟩

/-- Witness of C5: a 404 on `gone` while allow-missing is not set. -/
theorem c5_untolerated_error_reported_witness :
    Output.stderr ("Deleting " ++ demoQuote "gone" ++ " failed: " ++
        (Err.googleapi 404 "notFound").Error ++ "\n") ∈
      (runDeleteImage demoAPI demoQuote false [] ["b", "gone"] 0).out ∧
    (∀ plog, ("Deleting " ++ demoQuote "gone" ++ " failed: " ++
        (Err.googleapi 404 "notFound").Error ++ "\n") ∈
      stderrOf plog (runDeleteImage demoAPI demoQuote false [] ["b", "gone"] 0).out) ∧
    (runDeleteImage demoAPI demoQuote false [] ["b", "gone"] 0).exit = 1 :=
  c5_untolerated_error_reported demoAPI demoQuote false [] ["b", "gone"] 0 (by decide)
    "gone" (Err.googleapi 404 "notFound") (by decide) (by simp)

/-- C8: for a non-empty argument list, the call list is the `DeleteImage` calls,
one per argument in input order, followed by `Wait` calls only; so no
`DeleteImage` call comes after a `Wait` call, whatever the calls returned. -/
theorem c8_deletes_before_waits {σ : Type} (api : API σ) (q : String → String)
    (allowMissing : Bool) (seed : List Nat) (args : List String) (s : σ) (hargs : args ≠ []) :
    (∃ ds ws, (runDeleteImage api q allowMissing seed args s).calls = ds ++ ws ∧
      ds.map Call.deleteName = args.map some ∧
      (∀ c ∈ ws, ∃ name pending res, c = Call.Wait name pending res)) ∧
    (∀ before w after, (runDeleteImage api q allowMissing seed args s).calls =
        before ++ w :: after → (∃ name pending res, w = Call.Wait name pending res) →
      ∀ c ∈ after, ∃ name pending res, c = Call.Wait name pending res) := by
  obtain ⟨ds, ws, hcalls, _, hds, hws⟩ := run_calls api q allowMissing seed args s hargs
  have hwait : ∀ c ∈ ws, ∃ name pending res, c = Call.Wait name pending res := by
    intro c hc
    have hmem : c.waitEntry ∈ ws.map Call.waitEntry := List.mem_map_of_mem _ hc
    rw [hws] at hmem
    obtain ⟨e, _, he⟩ := List.mem_map.mp hmem
    cases c with
    | DeleteImage n r => simp [Call.waitEntry] at he
    | Wait n p r => exact ⟨n, p, r, rfl⟩
  have hdel : ∀ c ∈ ds, ∃ name, c.deleteName = some name := by
    intro c hc
    have hmem : c.deleteName ∈ ds.map Call.deleteName := List.mem_map_of_mem _ hc
    rw [hds] at hmem
    obtain ⟨n, _, hn⟩ := List.mem_map.mp hmem
    exact ⟨n, hn.symm⟩
  refine ⟨⟨ds, ws, hcalls, hds, hwait⟩, ?_⟩
  rintro before w after hsplit ⟨n, p, r, rfl⟩ c hc
  rw [hcalls, List.append_eq_append_iff] at hsplit
  rcases hsplit with ⟨a, _, hw⟩ | ⟨b, hb, hw⟩
  · exact hwait c (by rw [hw]; simp [hc])
  · cases b with
    | nil =>
      simp only [List.nil_append] at hw
      exact hwait c (by rw [← hw]; simp [hc])
    | cons d b =>
      simp only [List.cons_append, List.cons.injEq] at hw
      obtain ⟨m, hm⟩ := hdel (Call.Wait n p r) (by rw [hb, ← hw.1]; simp)
      simp [Call.deleteName] at hm

/-- Witness of C8: an early delete is issued and a later one fails. -/
theorem c8_deletes_before_waits_witness :
    ∃ ds ws, (runDeleteImage demoAPI demoQuote false [] ["a", "denied", "b"] 0).calls =
        ds ++ ws ∧
      ds.map Call.deleteName = ["a", "denied", "b"].map some ∧
      (∀ c ∈ ws, ∃ name pending res, c = Call.Wait name pending res) :=
  (c8_deletes_before_waits demoAPI demoQuote false [] ["a", "denied", "b"] 0 (by decide)).1

/-- C9: the (name, handle) entries that `runDeleteImage` waits on carry pairwise
different names, and `(name, pending)` is waited on exactly when `pending` is
the handle returned by the last `DeleteImage` call for `name` that returned a
handle (a later call for `name` that returns a handle takes its place, a later
call that returns an error, skipped or not, does not); so the names waited on
are exactly the names with at least one call that returned a handle. -/
theorem c9_waits_on_last_issued_per_name {σ : Type} (api : API σ) (q : String → String)
    (allowMissing : Bool) (seed : List Nat) (args : List String) (s : σ) :
    (((runDeleteImage api q allowMissing seed args s).calls.filterMap
        Call.waitEntry).map Prod.fst).Nodup ∧
    (∀ name pending,
      (name, pending) ∈ (runDeleteImage api q allowMissing seed args s).calls.filterMap
          Call.waitEntry ↔
        lastIssued name (runDeleteImage api q allowMissing seed args s).calls = some pending) ∧
    (∀ name,
      (∃ pending, (name, pending) ∈
          (runDeleteImage api q allowMissing seed args s).calls.filterMap Call.waitEntry) ↔
        ∃ pending, Call.DeleteImage name (.ok pending) ∈
          (runDeleteImage api q allowMissing seed args s).calls) := by
  have hperm := run_waited api q allowMissing seed args s
  have hmem : ∀ name pending,
      (name, pending) ∈ (runDeleteImage api q allowMissing seed args s).calls.filterMap
          Call.waitEntry ↔
        lastIssued name (runDeleteImage api q allowMissing seed args s).calls = some pending :=
    fun name pending => hperm.mem_iff.trans (mem_retained _ name pending)
  refine ⟨((hperm.map Prod.fst).nodup_iff).mpr (keys_retained_nodup _), hmem, ?_⟩
  intro name
  constructor
  · rintro ⟨p, hp⟩
    exact ⟨p, mem_of_lastIssued name p _ ((hmem name p).mp hp)⟩
  · rintro ⟨p, hp⟩
    obtain ⟨p', hp'⟩ := lastIssued_of_mem name p _ hp
    exact ⟨p', (hmem name p').mpr hp'⟩

/-- C7, as stated, fails: for the arguments `a`, `a` both `DeleteImage` calls
return a handle, but only the second handle is waited on; the number of `Wait`
calls is 1 and the number of handles returned is 2. -/
theorem c7_counterexample :
    (runDeleteImage demoAPI demoQuote false [] ["a", "a"] 0).calls.filterMap Call.issued =
      [("a", ⟨0⟩), ("a", ⟨1⟩)] ∧
    (runDeleteImage demoAPI demoQuote false [] ["a", "a"] 0).calls.filterMap Call.waitEntry =
      [("a", ⟨1⟩)] ∧
    ¬ ((runDeleteImage demoAPI demoQuote false [] ["a", "a"] 0).calls.filterMap
          Call.waitEntry).length =
      ((runDeleteImage demoAPI demoQuote false [] ["a", "a"] 0).calls.filterMap
          Call.issued).length := by
  decide

/-- C7, amended: for every argument list and every client, each `Wait` is on
a handle that a `DeleteImage` call of this run returned for the name it is
waited on under.  When no name has two `DeleteImage` calls that return a
handle, which is so when the arguments are pairwise different, the map at the
end holds, and the entries waited on are, up to order, exactly the (name,
handle) pairs returned by `DeleteImage` calls: every returned handle is waited
on once for each call that returned it, which is exactly once when the calls
returned pairwise different handles, and the number of `Wait` calls is the
number of `DeleteImage` calls that returned a handle. -/
theorem c7_each_issued_handle_waited_once {σ : Type} (api : API σ) (q : String → String)
    (allowMissing : Bool) (seed : List Nat) (args : List String) (s : σ) :
    (∀ name pending res, Call.Wait name pending res ∈
        (runDeleteImage api q allowMissing seed args s).calls →
      Call.DeleteImage name (.ok pending) ∈
        (runDeleteImage api q allowMissing seed args s).calls) ∧
    (args.Nodup →
      (((runDeleteImage api q allowMissing seed args s).calls.filterMap
        Call.issued).map Prod.fst).Nodup) ∧
    ((((runDeleteImage api q allowMissing seed args s).calls.filterMap
        Call.issued).map Prod.fst).Nodup →
      ((runDeleteImage api q allowMissing seed args s).pendings).Perm
        ((runDeleteImage api q allowMissing seed args s).calls.filterMap Call.issued) ∧
      ((runDeleteImage api q allowMissing seed args s).calls.filterMap Call.waitEntry).Perm
        ((runDeleteImage api q allowMissing seed args s).calls.filterMap Call.issued) ∧
      (∀ pending,
        (((runDeleteImage api q allowMissing seed args s).calls.filterMap
            Call.waitEntry).map Prod.snd).count pending =
          (((runDeleteImage api q allowMissing seed args s).calls.filterMap
            Call.issued).map Prod.snd).count pending) ∧
      ((runDeleteImage api q allowMissing seed args s).calls.filterMap Call.waitEntry).length =
        ((runDeleteImage api q allowMissing seed args s).calls.filterMap Call.issued).length ∧
      ((((runDeleteImage api q allowMissing seed args s).calls.filterMap
          Call.issued).map Prod.snd).Nodup →
        ∀ name pending, Call.DeleteImage name (.ok pending) ∈
            (runDeleteImage api q allowMissing seed args s).calls →
          (((runDeleteImage api q allowMissing seed args s).calls.filterMap
            Call.waitEntry).map Prod.snd).count pending = 1)) := by
  refine ⟨?_, ?_, ?_⟩
  · intro name pending res hw
    have hmem : (name, pending) ∈
        (runDeleteImage api q allowMissing seed args s).calls.filterMap Call.waitEntry :=
      List.mem_filterMap.mpr ⟨_, hw, rfl⟩
    exact mem_of_lastIssued name pending _
      ((mem_retained _ name pending).mp
        ((run_waited api q allowMissing seed args s).mem_iff.mp hmem))
  · intro hnodup
    have hsub := issued_names_sublist (runDeleteImage api q allowMissing seed args s).calls
    rw [deleteNames_run api q allowMissing seed args s] at hsub
    exact hnodup.sublist hsub
  · intro hnames
    have hret := retained_perm_issued _ hnames
    have hperm := (run_waited api q allowMissing seed args s).trans hret
    refine ⟨?_, hperm, fun p => ((hperm.map Prod.snd).count_eq p), hperm.length_eq, ?_⟩
    · rw [pendings_run api q allowMissing seed args s]
      exact hret
    · intro hhandles name pending hcall
      rw [(hperm.map Prod.snd).count_eq pending]
      refine List.count_eq_one_of_mem hhandles ?_
      exact List.mem_map.mpr ⟨(name, pending), List.mem_filterMap.mpr ⟨_, hcall, rfl⟩, rfl⟩

/-- Witness of C7 (amended): three different names, two of which are issued a
handle; each of the two handles is waited on exactly once. -/
theorem c7_each_issued_handle_waited_once_witness :
    ((runDeleteImage demoAPI demoQuote true [2, 0] ["a", "gone", "b"] 0).calls.filterMap
        Call.waitEntry).length =
      ((runDeleteImage demoAPI demoQuote true [2, 0] ["a", "gone", "b"] 0).calls.filterMap
        Call.issued).length ∧
    (((runDeleteImage demoAPI demoQuote true [2, 0] ["a", "gone", "b"] 0).calls.filterMap
        Call.waitEntry).map Prod.snd).count ⟨2⟩ = 1 :=
  ⟨((c7_each_issued_handle_waited_once demoAPI demoQuote true [2, 0] ["a", "gone", "b"]
      0).2.2 (by decide)).2.2.2.1,
    ((c7_each_issued_handle_waited_once demoAPI demoQuote true [2, 0] ["a", "gone", "b"]
      0).2.2 (by decide)).2.2.2.2 (by decide) "b" ⟨2⟩ (by decide)⟩

/-- C6, as stated, fails: for the arguments `a`, `a` the first `DeleteImage`
call returns handle 0, whose `Wait` fails in every client state, yet the run
exits with code 0 and outputs nothing: the second call for `a` returned handle
1, which took the place of handle 0 in the map, and handle 0 is not waited on. -/
theorem c6_counterexample :
    Call.DeleteImage "a" (.ok ⟨0⟩) ∈
      (runDeleteImage demoAPI demoQuote false [] ["a", "a"] 0).calls ∧
    (∀ s, (demoAPI.Wait s ⟨0⟩).1 = some (Err.other "timeout")) ∧
    (runDeleteImage demoAPI demoQuote false [] ["a", "a"] 0).exit = 0 ∧
    (runDeleteImage demoAPI demoQuote false [] ["a", "a"] 0).out = [] :=
  ⟨by decide, fun _ => rfl, by decide, by decide⟩

/-- C6, amended: for a non-empty argument list (repeated names included), let
`pending` be the handle returned by the last `DeleteImage` call for `name` that
returned a handle.  Then `Wait` is called on it for `name`; whenever such a
`Wait` returns an error `err`, the exit code is 1 and the write
`Deleting <quoted name> failed: <err>` is part of the output, hence of standard
error; in particular this happens when `Wait` on `pending` fails in every
client state.  No other handle is waited on for `name`: a handle that a later
call for `name` replaced in the map by a different handle is not waited on for
that name. -/
theorem c6_failed_wait_on_retained_handle {σ : Type} (api : API σ) (q : String → String)
    (allowMissing : Bool) (seed : List Nat) (args : List String) (s : σ) (hargs : args ≠ [])
    (name : String) (pending : Pending)
    (hlast : lastIssued name (runDeleteImage api q allowMissing seed args s).calls =
      some pending) :
    (∃ res, Call.Wait name pending res ∈
      (runDeleteImage api q allowMissing seed args s).calls) ∧
    (∀ err, Call.Wait name pending (some err) ∈
        (runDeleteImage api q allowMissing seed args s).calls →
      (runDeleteImage api q allowMissing seed args s).exit = 1 ∧
      Output.stderr ("Deleting " ++ q name ++ " failed: " ++ err.Error ++ "\n") ∈
        (runDeleteImage api q allowMissing seed args s).out ∧
      ∀ plog, ("Deleting " ++ q name ++ " failed: " ++ err.Error ++ "\n") ∈
        stderrOf plog (runDeleteImage api q allowMissing seed args s).out) ∧
    ((∀ s', (api.Wait s' pending).1 ≠ none) →
      (runDeleteImage api q allowMissing seed args s).exit = 1 ∧
      ∃ err : Err, Output.stderr ("Deleting " ++ q name ++ " failed: " ++ err.Error ++ "\n") ∈
        (runDeleteImage api q allowMissing seed args s).out) ∧
    (∀ other res, Call.Wait name other res ∈
        (runDeleteImage api q allowMissing seed args s).calls → other = pending) := by
  have hinv := inv_run api q allowMissing seed args s hargs
  have hwaited : ∃ res, Call.Wait name pending res ∈
      (runDeleteImage api q allowMissing seed args s).calls := by
    have hmem := (run_waited api q allowMissing seed args s).mem_iff.mpr
      ((mem_retained _ name pending).mpr hlast)
    obtain ⟨c, hc, he⟩ := List.mem_filterMap.mp hmem
    cases c with
    | DeleteImage n r => simp [Call.waitEntry] at he
    | Wait n p r =>
      simp only [Call.waitEntry, Option.some.injEq, Prod.mk.injEq] at he
      obtain ⟨rfl, rfl⟩ := he
      exact ⟨r, hc⟩
  have hfail : ∀ err, Call.Wait name pending (some err) ∈
        (runDeleteImage api q allowMissing seed args s).calls →
      (runDeleteImage api q allowMissing seed args s).exit = 1 ∧
      Output.stderr ("Deleting " ++ q name ++ " failed: " ++ err.Error ++ "\n") ∈
        (runDeleteImage api q allowMissing seed args s).out ∧
      ∀ plog, ("Deleting " ++ q name ++ " failed: " ++ err.Error ++ "\n") ∈
        stderrOf plog (runDeleteImage api q allowMissing seed args s).out := by
    intro err hc
    have hout : Output.stderr ("Deleting " ++ q name ++ " failed: " ++ err.Error ++ "\n") ∈
        (runDeleteImage api q allowMissing seed args s).out := by
      rw [hinv.out_eq]
      exact mem_out_of_mem_calls q allowMissing _ _ _ hc (by simp [callOut, failureLine])
    exact ⟨(exit_eq_one_iff api q allowMissing seed args s hargs).mpr
      (Or.inr ⟨name, pending, err, hc⟩), hout, fun plog => mem_stderrOf plog _ _ hout⟩
  refine ⟨hwaited, hfail, ?_, ?_⟩
  · intro hall
    obtain ⟨res, hc⟩ := hwaited
    obtain ⟨s', hs'⟩ := fromClient_run api q allowMissing seed args s _ hc
    cases res with
    | none => exact absurd hs'.symm (hall s')
    | some err => exact ⟨(hfail err hc).1, err, (hfail err hc).2.1⟩
  · intro other res hw
    have hmem : (name, other) ∈
        (runDeleteImage api q allowMissing seed args s).calls.filterMap Call.waitEntry :=
      List.mem_filterMap.mpr ⟨_, hw, rfl⟩
    have hother := (mem_retained _ name other).mp
      ((run_waited api q allowMissing seed args s).mem_iff.mp hmem)
    rw [hlast] at hother
    exact (Option.some.inj hother).symm

/-- Witness of C6 (amended): `a` is named twice; `b` is issued handle 0 once,
and the `Wait` of handle 0 fails. -/
theorem c6_failed_wait_on_retained_handle_witness :
    (runDeleteImage demoAPI demoQuote false [] ["b", "a", "a"] 0).exit = 1 ∧
    ∃ err : Err, Output.stderr ("Deleting " ++ demoQuote "b" ++ " failed: " ++ err.Error ++ "\n") ∈
      (runDeleteImage demoAPI demoQuote false [] ["b", "a", "a"] 0).out :=
  (c6_failed_wait_on_retained_handle demoAPI demoQuote false [] ["b", "a", "a"] 0 (by decide)
    "b" ⟨0⟩ (by decide)).2.2.1 (fun _ => by simp [demoAPI])

/-- C4, as stated, fails: with allow-missing set, the only `DeleteImage` call
fails with a 404 `*googleapi.Error` and the exit code is 0, but standard error
is not empty when the logger prints informational messages there: it holds the
line logged for the skipped error. -/
theorem c4_counterexample :
    (runDeleteImage demoAPI demoQuote true [] ["gone"] 0).calls =
      [Call.DeleteImage "gone" (.error (Err.googleapi 404 "notFound"))] ∧
    (runDeleteImage demoAPI demoQuote true [] ["gone"] 0).exit = 0 ∧
    stderrOf verboseLog (runDeleteImage demoAPI demoQuote true [] ["gone"] 0).out =
      ["notFound\n"] ∧
    ¬ stderrOf verboseLog (runDeleteImage demoAPI demoQuote true [] ["gone"] 0).out = [] := by
  decide

/-- C4, amended: with allow-missing set, a `DeleteImage` call that fails with a
404 `*googleapi.Error` only hands the error text to `plog.Infof`: the exit
code and the map are left as they were and nothing is written to standard error
by the command.  So for a non-empty argument list in which every `DeleteImage`
error is such a 404 error and no `Wait` fails, the exit code is 0 and the whole
output consists of the `plog.Infof` messages of the skipped errors: standard
error holds what the logger prints for them and nothing else, and is empty
when the logger prints nothing there. -/
theorem c4_not_found_skipped {σ : Type} (api : API σ) (q : String → String)
    (seed : List Nat) (args : List String) (s : σ) (hargs : args ≠ [])
    (hdel : ∀ name err, Call.DeleteImage name (.error err) ∈
      (runDeleteImage api q true seed args s).calls → ∃ msg, err = Err.googleapi 404 msg)
    (hwait : ∀ name pending err, Call.Wait name pending (some err) ∉
      (runDeleteImage api q true seed args s).calls) :
    (∀ (st : State σ) (name msg : String) (s' : σ),
      api.DeleteImage st.api name = (.error (Err.googleapi 404 msg), s') →
      deleteStep api q true st name =
        { st with
          api := s'
          calls := st.calls ++ [Call.DeleteImage name (.error (Err.googleapi 404 msg))]
          out := st.out ++ [Output.plogInfof (msg ++ "\n")] }) ∧
    (runDeleteImage api q true seed args s).exit = 0 ∧
    (∀ o ∈ (runDeleteImage api q true seed args s).out, ∃ name msg,
      o = Output.plogInfof (msg ++ "\n") ∧
      Call.DeleteImage name (.error (Err.googleapi 404 msg)) ∈
        (runDeleteImage api q true seed args s).calls) ∧
    (∀ plog, stderrOf plog (runDeleteImage api q true seed args s).out =
      ((runDeleteImage api q true seed args s).calls.filterMap
        (fun c => match c with
          | .DeleteImage _ (.error err) => some (err.Error ++ "\n")
          | _ => none)).flatMap plog) ∧
    (∀ plog, (∀ msg, plog msg = []) →
      stderrOf plog (runDeleteImage api q true seed args s).out = []) := by
  have hinv := inv_run api q true seed args s hargs
  have hout : ∀ o ∈ (runDeleteImage api q true seed args s).out, ∃ name msg,
      o = Output.plogInfof (msg ++ "\n") ∧
      Call.DeleteImage name (.error (Err.googleapi 404 msg)) ∈
        (runDeleteImage api q true seed args s).calls := by
    intro o ho
    rw [hinv.out_eq] at ho
    obtain ⟨c, hc, hoc⟩ := List.mem_flatMap.mp ho
    cases c with
    | DeleteImage n r =>
      cases r with
      | error err =>
        obtain ⟨msg, rfl⟩ := hdel n err hc
        refine ⟨n, msg, ?_, hc⟩
        simpa [callOut, skipNotFound, Err.Error] using hoc
      | ok p => simp [callOut] at hoc
    | Wait n p r =>
      cases r with
      | some err => exact absurd hc (hwait n p err)
      | none => simp [callOut] at hoc
  refine ⟨?_, ?_, hout, ?_, ?_⟩
  · intro st name msg s' hd
    simp [deleteStep, hd, skipNotFound, Err.Error]
  · have hex := hinv.exit_eq
    by_cases hany : (runDeleteImage api q true seed args s).calls.any (Call.failed true) = true
    · rcases (any_failed_iff true _).mp hany with ⟨n, e, hc, hs⟩ | ⟨n, p, e, hc⟩
      · obtain ⟨msg, rfl⟩ := hdel n e hc
        simp [skipNotFound] at hs
      · exact absurd hc (hwait n p e)
    · rw [if_neg hany] at hex
      exact hex
  · intro plog
    rw [hinv.out_eq]
    have hgen : ∀ cs : List Call,
        (∀ name err, Call.DeleteImage name (.error err) ∈ cs → ∃ msg, err = Err.googleapi 404 msg) →
        (∀ name pending err, Call.Wait name pending (some err) ∉ cs) →
        stderrOf plog (cs.flatMap (callOut q true)) =
          (cs.filterMap (fun c => match c with
            | .DeleteImage _ (.error err) => some (err.Error ++ "\n")
            | _ => none)).flatMap plog := by
      intro cs
      induction cs with
      | nil => intro _ _; simp [stderrOf]
      | cons c cs ih =>
        intro h1 h2
        have ih2 := ih (fun n e h => h1 n e (List.mem_cons_of_mem _ h))
          (fun n p e h => h2 n p e (List.mem_cons_of_mem _ h))
        simp only [stderrOf] at ih2 ⊢
        rw [List.flatMap_cons, List.flatMap_append, ih2]
        cases c with
        | DeleteImage n r =>
          cases r with
          | error err =>
            obtain ⟨msg, rfl⟩ := h1 n _ (List.mem_cons_self _ _)
            simp [callOut, skipNotFound, Err.Error]
          | ok p => simp [callOut]
        | Wait n p r =>
          cases r with
          | some err => exact absurd (List.mem_cons_self _ _) (h2 n p err)
          | none => simp [callOut]
    exact hgen _ hdel hwait
  · intro plog hplog
    simp only [stderrOf, List.flatMap_eq_nil_iff]
    intro o ho
    obtain ⟨n, msg, rfl, _⟩ := hout o ho
    exact hplog _

/-- Witness of C4 (amended): one name is skipped, one is deleted. -/
theorem c4_not_found_skipped_witness :
    (runDeleteImage demoAPI demoQuote true [] ["gone", "b"] 0).exit = 0 ∧
    stderrOf silentLog (runDeleteImage demoAPI demoQuote true [] ["gone", "b"] 0).out = [] := by
  have hcalls : (runDeleteImage demoAPI demoQuote true [] ["gone", "b"] 0).calls =
      [Call.DeleteImage "gone" (.error (Err.googleapi 404 "notFound")),
        Call.DeleteImage "b" (.ok ⟨1⟩), Call.Wait "b" ⟨1⟩ none] := by decide
  have hthm := c4_not_found_skipped demoAPI demoQuote [] ["gone", "b"] 0 (by decide)
    (by
      intro name err h
      rw [hcalls] at h
      simp at h
      exact ⟨"notFound", h.2⟩)
    (by
      intro name pending err h
      rw [hcalls] at h
      simp at h)
  exact ⟨hthm.2.1, hthm.2.2.2.2 silentLog (fun _ => rfl)⟩

/-- C10: for a non-empty argument list and a client for which, after the first
loop, the result of `Wait` on a retained handle does not depend on the `Wait`
calls made before it, any two visiting orders of the map give the same exit
code, the same calls and the same output up to order, hence the same lines on
standard error up to order whatever the logger does; and in every run the
number of writes that the command makes to standard error, all of them failure
lines, is the number of `DeleteImage` errors that were not skipped plus the
number of failed `Wait` calls.  Every ordering of the retained entries is the
visiting order of some seed, so this covers any two orders of the waits. -/
theorem c10_wait_order_irrelevant {σ : Type} (api : API σ) (q : String → String)
    (allowMissing : Bool) (seed₁ seed₂ : List Nat) (args : List String) (s : σ)
    (hargs : args ≠ [])
    (hind : WaitOrderIndependent api (deleteLoop api q allowMissing args s).api
      (deleteLoop api q allowMissing args s).pendings) :
    (runDeleteImage api q allowMissing seed₁ args s).exit =
      (runDeleteImage api q allowMissing seed₂ args s).exit ∧
    ((runDeleteImage api q allowMissing seed₁ args s).calls).Perm
      (runDeleteImage api q allowMissing seed₂ args s).calls ∧
    ((runDeleteImage api q allowMissing seed₁ args s).out).Perm
      (runDeleteImage api q allowMissing seed₂ args s).out ∧
    (∀ plog, (stderrOf plog (runDeleteImage api q allowMissing seed₁ args s).out).Perm
      (stderrOf plog (runDeleteImage api q allowMissing seed₂ args s).out)) ∧
    ((runDeleteImage api q allowMissing seed₁ args s).out.countP Output.isStderr =
      (runDeleteImage api q allowMissing seed₁ args s).calls.countP
          (Call.deleteFailed allowMissing) +
        (runDeleteImage api q allowMissing seed₁ args s).calls.countP Call.waitFailed) ∧
    (∀ text, Output.stderr text ∈ (runDeleteImage api q allowMissing seed₁ args s).out →
      ∃ (name : String) (err : Err),
        text = "Deleting " ++ q name ++ " failed: " ++ err.Error ++ "\n") ∧
    (∀ order : List (String × Pending),
      order.Perm (deleteLoop api q allowMissing args s).pendings →
      ∃ seed, mapRange seed (deleteLoop api q allowMissing args s).pendings = order) := by
  have hinv₁ := inv_run api q allowMissing seed₁ args s hargs
  have hinv₂ := inv_run api q allowMissing seed₂ args s hargs
  have hcalls : ∀ seed, (runDeleteImage api q allowMissing seed args s).calls =
      (deleteLoop api q allowMissing args s).calls ++
        (mapRange seed (deleteLoop api q allowMissing args s).pendings).map
          (fun e => Call.Wait e.1 e.2
            (api.Wait (deleteLoop api q allowMissing args s).api e.2).1) := by
    intro seed
    rw [runDeleteImage_of_ne_nil api q allowMissing seed args s hargs]
    exact calls_foldl_wait_indep api q _ _ hind _ _ []
      (fun e he => List.mem_map_of_mem _ ((mapRange_perm seed _).mem_iff.mp he))
      (by simp) rfl
  have hperm : ((runDeleteImage api q allowMissing seed₁ args s).calls).Perm
      (runDeleteImage api q allowMissing seed₂ args s).calls := by
    rw [hcalls seed₁, hcalls seed₂]
    exact List.Perm.append_left _
      (((mapRange_perm seed₁ _).trans (mapRange_perm seed₂ _).symm).map _)
  have hout : ((runDeleteImage api q allowMissing seed₁ args s).out).Perm
      (runDeleteImage api q allowMissing seed₂ args s).out := by
    rw [hinv₁.out_eq, hinv₂.out_eq]
    exact hperm.flatMap_right _
  refine ⟨?_, hperm, hout, fun plog => hout.flatMap_right _, ?_, ?_,
    fun order h => mapRange_surj _ order h⟩
  · have hany : (runDeleteImage api q allowMissing seed₁ args s).calls.any
          (Call.failed allowMissing) =
        (runDeleteImage api q allowMissing seed₂ args s).calls.any
          (Call.failed allowMissing) := by
      rw [Bool.eq_iff_iff, List.any_eq_true, List.any_eq_true]
      exact exists_congr fun c => and_congr_left fun _ => hperm.mem_iff
    rw [hinv₁.exit_eq, hinv₂.exit_eq, hany]
  · rw [hinv₁.out_eq]
    exact countP_stderr_callOut q allowMissing _
  · intro text ht
    rw [hinv₁.out_eq] at ht
    obtain ⟨c, _, hc⟩ := List.mem_flatMap.mp ht
    cases c with
    | DeleteImage n r =>
      cases r with
      | error err =>
        by_cases hs : skipNotFound allowMissing err = true
        · simp [callOut, hs] at hc
        · exact ⟨n, err, by simpa [callOut, hs, failureLine] using hc⟩
      | ok p => simp [callOut] at hc
    | Wait n p r =>
      cases r with
      | some err => exact ⟨n, err, by simpa [callOut, failureLine] using hc⟩
      | none => simp [callOut] at hc

/-- Witness of C10: three handles are retained, two `Wait` calls fail, and
the map is visited in two different orders. -/
theorem c10_wait_order_irrelevant_witness :
    (runDeleteImage demoAPI demoQuote false [0, 0, 0] ["a", "denied", "b", "c"] 0).exit =
      (runDeleteImage demoAPI demoQuote false [2, 1, 0] ["a", "denied", "b", "c"] 0).exit ∧
    ((runDeleteImage demoAPI demoQuote false [0, 0, 0] ["a", "denied", "b", "c"] 0).out).Perm
      (runDeleteImage demoAPI demoQuote false [2, 1, 0] ["a", "denied", "b", "c"] 0).out :=
  ⟨(c10_wait_order_irrelevant demoAPI demoQuote false [0, 0, 0] [2, 1, 0]
      ["a", "denied", "b", "c"] 0 (by decide) (fun _ _ _ _ => rfl)).1,
    (c10_wait_order_irrelevant demoAPI demoQuote false [0, 0, 0] [2, 1, 0]
      ["a", "denied", "b", "c"] 0 (by decide) (fun _ _ _ _ => rfl)).2.2.1⟩

end DeleteImages
